import Mathlib

/-!
Verification of the moving-average-ribbon trading strategy (`ma-ribbon.py`).

The script computes, per security and day, a universe filter (`make_pipeline`),
and, per day, a benchmark allocation (`before_trading_start`), a rebalancing
order list (`my_rebalance` / `daily_clean`), and recorded variables.

Numeric values are modelled as rationals.  A benchmark price history is a
function `price : ℕ → ℚ` where `price k` is the closing price `k` bars before
the most recent bar, so `data.history(..., bar_count=i, ...)` returns the
prices `price 0, …, price (i-1)` and its `.mean()` is their average.
Division, which Python fails on when the denominator is zero, is modelled as
an `Option`-valued operation, so the allocation computation returns `none`
exactly when its error branch is reached.
-/

namespace MARibbon

set_option maxRecDepth 100000

/-! ### Pipeline: factors and filters (`MarketCap`, `WeeklyReturn`, `make_pipeline`) -/

/-- Per-security data available to the pipeline on one day: shares
outstanding, the latest close, the close one bar earlier (the start of the
`WeeklyReturn` two-bar window), and the latest volume. -/
structure SecData where
  shares_outstanding : ℚ
  close : ℚ
  close_prev : ℚ
  volume : ℚ
deriving DecidableEq

/-- `MarketCap.compute`: `shares * close_price`. -/
def marketCap (d : SecData) : ℚ := d.shares_outstanding * d.close

/-- `WeeklyReturn.compute`: `(close[-1]/close[0] - 1) * 100` over a two-bar
window, i.e. latest close over previous close. -/
def weeklyReturn (d : SecData) : ℚ := (d.close / d.close_prev - 1) * 100

/-- A pipeline filter, evaluated per security. -/
abbrev SecFilter := SecData → Bool

/-- Python truthiness of a pipeline-filter *object*: a `Filter` instance
defines no `__bool__`, so as an object it is always truthy. -/
def filterTruthy (_f : SecFilter) : Bool := true

/-- Python's `and` between two filter objects: `a and b` evaluates `bool(a)`
and returns `b` when `a` is truthy, else `a`.  It does NOT build the
element-wise conjunction (that would be `&`). -/
def pyAnd (a b : SecFilter) : SecFilter := if filterTruthy a then b else a

/-- `above_micro = (MarketCap() >= 50000000)`. -/
def above_micro : SecFilter := fun d => decide (marketCap d ≥ 50000000)

/-- The first operand of the price-range `and`: `close.latest >= 1`. -/
def price_lower_bound : SecFilter := fun d => decide (d.close ≥ 1)

/-- The second operand of the price-range `and`: `close.latest <= 15.00`. -/
def price_upper_bound : SecFilter := fun d => decide (d.close ≤ 15)

/-- `price_range = (close.latest >= 1 and close.latest <= 15.00)`, with
Python `and` semantics on the two filter objects. -/
def price_range : SecFilter := pyAnd price_lower_bound price_upper_bound

/-- `highly_liquid = yesterday_volume >= 1000000`. -/
def highly_liquid : SecFilter := fun d => decide (d.volume ≥ 1000000)

/-- `long_position = weekly_return > 0`. -/
def long_position : SecFilter := fun d => decide (weeklyReturn d > 0)

/-- `short_position = weekly_return < 0`. -/
def short_position : SecFilter := fun d => decide (weeklyReturn d < 0)

/-- `is_tradable = above_micro & price_range & highly_liquid &
(long_position | short_position)` — here `&`/`|` are the element-wise
pipeline combinators. -/
def is_tradable : SecFilter := fun d =>
  above_micro d && price_range d && highly_liquid d &&
    (long_position d || short_position d)

/-! ### Benchmark momentum allocator (`before_trading_start`) -/

/-- `benchmark_history.mean()` for `bar_count = i`: the average of the `i`
most recent prices. -/
def mean_group (price : ℕ → ℚ) (i : ℕ) : ℚ :=
  (∑ k in Finset.range i, price k) / i

/-- `range(2, 25, 2)`: the 12 window lengths `2, 4, …, 24`. -/
def windows : List ℕ := List.range' 2 12 2

/-- The `sum_distance` list: for each `i` in `range(2,25,2)` with `i < 23`,
append `mean_group[i] - mean_group[i+2]`. -/
def sum_distance (price : ℕ → ℚ) : List ℚ :=
  (windows.filter (fun i => decide (i < 23))).map
    (fun i => mean_group price i - mean_group price (i + 2))

/-- Ascending sort, as used by `np.percentile`'s order statistics. -/
def sortedAsc (xs : List ℚ) : List ℚ := xs.insertionSort (· ≤ ·)

/-- `np.percentile(xs, 0)`: interpolation index `0/100 * (n-1) = 0` into the
sorted data, i.e. its first element. -/
def percentile0 (xs : List ℚ) : ℚ := (sortedAsc xs).headD 0

/-- `np.percentile(xs, 100)`: interpolation index `100/100 * (n-1) = n-1`
into the sorted data, i.e. its last element. -/
def percentile100 (xs : List ℚ) : ℚ := (sortedAsc xs).getLastD 0

/-- `high_low = np.percentile(sum_distance, [0, 100])`. -/
def high_low (xs : List ℚ) : List ℚ := [percentile0 xs, percentile100 xs]

/-- `abs_diff = sum(abs(high_low))`. -/
def abs_diff (xs : List ℚ) : ℚ := ((high_low xs).map (fun x => |x|)).sum

/-- Fallible division: Python division fails when the denominator is zero. -/
def div? (a b : ℚ) : Option ℚ := if b = 0 then none else some (a / b)

/-- The per-day scalars stored on the context by `before_trading_start`:
`context.allocations`, `context.long_allocations`,
`context.short_allocations`. -/
structure AllocState where
  allocations : ℚ
  long_allocations : ℚ
  short_allocations : ℚ
deriving DecidableEq

/-- The numeric part of `before_trading_start`: build `sum_distance`, its
normalizing scale `abs_diff`, normalize each entry (`sum_distance[i] /
abs_diff`), average (`np.average` divides by the length), and set
`long_allocations = 0.5 + average`, `short_allocations = 1 -
long_allocations`, `context.allocations = average`. -/
def before_trading_start (price : ℕ → ℚ) : Option AllocState :=
  let sd := sum_distance price
  let ad := abs_diff sd
  (sd.mapM (fun d => div? d ad)).bind fun allocations =>
    (div? allocations.sum allocations.length).bind fun avg =>
      let long_allocations := 1/2 + avg
      let short_allocations := 1 - long_allocations
      some ⟨avg, long_allocations, short_allocations⟩

/-! ### Rebalancing (`my_rebalance`, `daily_clean`) -/

/-- Securities are opaque host-supplied identifiers. -/
abbrev Security := ℕ

/-- The context fields read by `my_rebalance` and `daily_clean`:
`context.longs`, `context.shorts`, `context.security_list`,
`context.portfolio.positions`, the host's `data.can_trade`, and the day's
two allocation scalars. -/
structure RebalanceCtx where
  longs : List Security
  shorts : List Security
  security_list : List Security
  positions : List Security
  canTrade : Security → Bool
  long_allocations : ℚ
  short_allocations : ℚ

/-- `daily_clean`: for every held security not in `context.security_list`
that is tradable, submit `order_target_percent(stock, 0)`.  The result is
the list of submitted orders `(security, target percent)`. -/
def daily_clean (ctx : RebalanceCtx) : List (Security × ℚ) :=
  (ctx.positions.filter
      (fun s => !(decide (s ∈ ctx.security_list)) && ctx.canTrade s)).map
    (fun s => (s, 0))

/-- `my_rebalance`: when both `context.longs` and `context.shorts` are
non-empty, order `long_allocations / len(longs)` for each tradable long not
already held and `-(short_allocations / len(shorts))` for each tradable
short not already held; then `daily_clean` runs unconditionally.  The result
is the list of submitted orders in submission order. -/
def my_rebalance (ctx : RebalanceCtx) : List (Security × ℚ) :=
  (if 0 < ctx.longs.length ∧ 0 < ctx.shorts.length then
    let long_weight := ctx.long_allocations / (ctx.longs.length : ℚ)
    let short_weight := ctx.short_allocations / (ctx.shorts.length : ℚ)
    ((ctx.longs.filter
        (fun s => ctx.canTrade s && !(decide (s ∈ ctx.positions)))).map
      (fun s => (s, long_weight))) ++
    ((ctx.shorts.filter
        (fun s => ctx.canTrade s && !(decide (s ∈ ctx.positions)))).map
      (fun s => (s, -short_weight)))
  else []) ++ daily_clean ctx

/-! ### Concrete inputs used as witnesses -/

/-- A price history that is strictly increasing through time: `price k`
(`k` bars ago) equals `100 - k`. -/
def incPrice : ℕ → ℚ := fun k => 100 - (k : ℚ)

/-- A price history that is zero from bar 22 back. -/
def histA : ℕ → ℚ := fun k => if k < 22 then (k : ℚ) else 0

/-- A price history agreeing with `histA` on bars 0–21 but not on 22–23. -/
def histB : ℕ → ℚ := fun k => if k < 22 then (k : ℚ) else 1000

/-! ### Theorems -/

/-- C2: the price-range condition, written with Python `and` on two filter
objects, evaluates to the upper-bound comparison alone, so `is_tradable`
equals the filter with no lower price bound; in particular a security whose
latest close is 1/2 (below 1) but passes the other conditions is tradable. -/
theorem is_tradable_ignores_lower_price_bound :
    (∀ d : SecData, is_tradable d =
      (above_micro d && price_upper_bound d && highly_liquid d &&
        (long_position d || short_position d))) ∧
    is_tradable ⟨1000000000, 1/2, 1/4, 2000000⟩ = true := by
  refine ⟨fun d => rfl, by with_unfolding_all rfl⟩

/-- C3 counterexample: on the concrete history `histA`, `sum_distance` has
11 entries, not 10, and it differs from `sum_distance histB` although the
two histories agree on bars 0–21 — only window 24 reaches bars 22 and 23,
so window 24 is used in a difference. -/
theorem sum_distance_not_ten_entries :
    (sum_distance histA).length ≠ 10 ∧
    sum_distance histA ≠ sum_distance histB ∧
    (∀ k, k < 22 → histA k = histB k) := by
  refine ⟨of_decide_eq_false (by with_unfolding_all rfl),
    of_decide_eq_false (by with_unfolding_all rfl), ?_⟩
  intro k hk
  simp only [histA, histB, if_pos hk]

/-- C3 amended: the `i < 23` guard excludes only `i = 24` (whose difference
would need the nonexistent window 26), so `sum_distance` consists of the 11
adjacent-pair differences for windows 2–4 through 22–24; window 24 is used
as the longer window of the last pair. -/
theorem sum_distance_eq_eleven_pairs (price : ℕ → ℚ) :
    sum_distance price =
      [mean_group price 2 - mean_group price 4,
       mean_group price 4 - mean_group price 6,
       mean_group price 6 - mean_group price 8,
       mean_group price 8 - mean_group price 10,
       mean_group price 10 - mean_group price 12,
       mean_group price 12 - mean_group price 14,
       mean_group price 14 - mean_group price 16,
       mean_group price 16 - mean_group price 18,
       mean_group price 18 - mean_group price 20,
       mean_group price 20 - mean_group price 22,
       mean_group price 22 - mean_group price 24] := rfl

/-! ### Order statistics of the sorted difference list -/

lemma sortedAsc_sorted (xs : List ℚ) : (sortedAsc xs).Sorted (· ≤ ·) :=
  List.sorted_insertionSort _ xs

lemma sortedAsc_perm (xs : List ℚ) : (sortedAsc xs).Perm xs :=
  List.perm_insertionSort _ xs

lemma headD_le_of_sorted {l : List ℚ} (hs : l.Sorted (· ≤ ·)) {x : ℚ}
    (hx : x ∈ l) (d : ℚ) : l.headD d ≤ x := by
  cases l with
  | nil => cases hx
  | cons a t =>
    rcases List.mem_cons.mp hx with rfl | hx'
    · exact le_refl x
    · exact List.rel_of_sorted_cons hs x hx'

lemma le_getLastD_of_sorted (l : List ℚ) (hs : l.Sorted (· ≤ ·)) :
    ∀ x ∈ l, ∀ d : ℚ, x ≤ l.getLastD d := by
  induction l with
  | nil => intro x hx; cases hx
  | cons a t ih =>
    intro x hx d
    cases t with
    | nil =>
      rcases List.mem_cons.mp hx with rfl | h
      · exact le_refl x
      · cases h
    | cons b t' =>
      rw [List.getLastD_cons]
      have hbt : b ≤ (b :: t').getLastD a :=
        ih hs.of_cons b (List.mem_cons_self b t') a
      rcases List.mem_cons.mp hx with rfl | hx'
      · exact le_trans (List.rel_of_sorted_cons hs b (List.mem_cons_self b t')) hbt
      · exact ih hs.of_cons x hx' a

lemma headD_mem {l : List ℚ} (h : l ≠ []) (d : ℚ) : l.headD d ∈ l := by
  cases l with
  | nil => exact absurd rfl h
  | cons a t => exact List.mem_cons_self a t

lemma getLastD_mem (l : List ℚ) (h : l ≠ []) : ∀ d : ℚ, l.getLastD d ∈ l := by
  induction l with
  | nil => exact absurd rfl h
  | cons a t ih =>
    intro d
    cases t with
    | nil => exact List.mem_cons_self a []
    | cons b t' =>
      rw [List.getLastD_cons]
      exact List.mem_cons_of_mem a (ih (List.cons_ne_nil b t') a)

lemma sortedAsc_ne_nil {xs : List ℚ} (h : xs ≠ []) : sortedAsc xs ≠ [] := by
  intro hnil
  apply h
  rw [← List.length_eq_zero, ← (sortedAsc_perm xs).length_eq, hnil, List.length_nil]

lemma percentile0_mem {xs : List ℚ} (h : xs ≠ []) : percentile0 xs ∈ xs :=
  (sortedAsc_perm xs).mem_iff.mp (headD_mem (sortedAsc_ne_nil h) 0)

lemma percentile100_mem {xs : List ℚ} (h : xs ≠ []) : percentile100 xs ∈ xs :=
  (sortedAsc_perm xs).mem_iff.mp (getLastD_mem _ (sortedAsc_ne_nil h) 0)

lemma percentile0_le {xs : List ℚ} {x : ℚ} (hx : x ∈ xs) : percentile0 xs ≤ x :=
  headD_le_of_sorted (sortedAsc_sorted xs) ((sortedAsc_perm xs).mem_iff.mpr hx) 0

lemma le_percentile100 {xs : List ℚ} {x : ℚ} (hx : x ∈ xs) : x ≤ percentile100 xs :=
  le_getLastD_of_sorted _ (sortedAsc_sorted xs) x
    ((sortedAsc_perm xs).mem_iff.mpr hx) 0

lemma abs_diff_val (xs : List ℚ) :
    abs_diff xs = |percentile0 xs| + |percentile100 xs| := by
  simp [abs_diff, high_low]

/-- Internal copy of the `sum_distance` unfolding, shared by several proofs. -/
lemma sum_distance_unfold (price : ℕ → ℚ) :
    sum_distance price =
      [mean_group price 2 - mean_group price 4,
       mean_group price 4 - mean_group price 6,
       mean_group price 6 - mean_group price 8,
       mean_group price 8 - mean_group price 10,
       mean_group price 10 - mean_group price 12,
       mean_group price 12 - mean_group price 14,
       mean_group price 14 - mean_group price 16,
       mean_group price 16 - mean_group price 18,
       mean_group price 18 - mean_group price 20,
       mean_group price 20 - mean_group price 22,
       mean_group price 22 - mean_group price 24] := rfl

lemma sum_distance_ne_nil (price : ℕ → ℚ) : sum_distance price ≠ [] := by
  rw [sum_distance_unfold]
  exact List.cons_ne_nil _ _

/-- C6: the normalizing scale `abs_diff` of the difference list equals
`|m| + |M|` where `m` and `M` are the exact minimum and maximum of the
list — elements of the list bounding every element from below and above. -/
theorem abs_diff_eq_abs_min_add_abs_max (price : ℕ → ℚ) :
    ∃ m M, m ∈ sum_distance price ∧ M ∈ sum_distance price ∧
      (∀ x ∈ sum_distance price, m ≤ x ∧ x ≤ M) ∧
      abs_diff (sum_distance price) = |m| + |M| :=
  ⟨percentile0 (sum_distance price), percentile100 (sum_distance price),
    percentile0_mem (sum_distance_ne_nil price),
    percentile100_mem (sum_distance_ne_nil price),
    fun _ hx => ⟨percentile0_le hx, le_percentile100 hx⟩,
    abs_diff_val _⟩

/-! ### Arithmetic facts about the window means -/

lemma windows_bounds {i : ℕ} (h : i ∈ windows) : 2 ≤ i ∧ i ≤ 24 := by
  obtain ⟨t, ht, rfl⟩ := List.mem_range'.mp h
  omega

lemma price_strict_between (price : ℕ → ℚ)
    (hinc : ∀ k, k < 23 → price (k + 1) < price k) :
    ∀ j k, j < k → k < 24 → price k < price j := by
  intro j k
  induction k with
  | zero => intro h _; exact absurd h (by omega)
  | succ k ih =>
    intro hjk hk
    rcases Nat.lt_succ_iff_lt_or_eq.mp hjk with h | h
    · exact lt_trans (hinc k (by omega)) (ih h (by omega))
    · subst h
      exact hinc j (by omega)

lemma mean_group_flat (price : ℕ → ℚ)
    (hflat : ∀ k, k < 24 → price k = price 0)
    (i : ℕ) (h1 : 1 ≤ i) (h2 : i ≤ 24) : mean_group price i = price 0 := by
  unfold mean_group
  have hsum : ∑ k in Finset.range i, price k = ∑ _k in Finset.range i, price 0 :=
    Finset.sum_congr rfl fun k hk =>
      hflat k (by have := Finset.mem_range.mp hk; omega)
  have hi : (i : ℚ) ≠ 0 := Nat.cast_ne_zero.mpr (by omega)
  rw [hsum, Finset.sum_const, Finset.card_range, nsmul_eq_mul,
    mul_div_cancel_left₀ _ hi]

lemma mean_group_lt (price : ℕ → ℚ)
    (hinc : ∀ k, k < 23 → price (k + 1) < price k)
    (i j : ℕ) (h1 : 1 ≤ i) (hij : j = i + 2) (hj : j ≤ 24) :
    mean_group price j < mean_group price i := by
  subst hij
  have hmono := price_strict_between price hinc
  have hne : (Finset.range i).Nonempty := Finset.nonempty_range_iff.mpr (by omega)
  have hb1 : (i : ℚ) * price i < ∑ k in Finset.range i, price k := by
    have h : ∑ _k in Finset.range i, price i < ∑ k in Finset.range i, price k :=
      Finset.sum_lt_sum_of_nonempty hne fun k hk =>
        hmono k i (Finset.mem_range.mp hk) (by omega)
    calc (i : ℚ) * price i = ∑ _k in Finset.range i, price i := by
          rw [Finset.sum_const, Finset.card_range, nsmul_eq_mul]
      _ < _ := h
  have hb2 : (i : ℚ) * price (i + 1) < ∑ k in Finset.range i, price k := by
    have h : ∑ _k in Finset.range i, price (i + 1) < ∑ k in Finset.range i, price k :=
      Finset.sum_lt_sum_of_nonempty hne fun k hk =>
        hmono k (i + 1) (by have := Finset.mem_range.mp hk; omega) (by omega)
    calc (i : ℚ) * price (i + 1) = ∑ _k in Finset.range i, price (i + 1) := by
          rw [Finset.sum_const, Finset.card_range, nsmul_eq_mul]
      _ < _ := h
  have hsplit : ∑ k in Finset.range (i + 2), price k =
      (∑ k in Finset.range i, price k) + price i + price (i + 1) := by
    rw [show i + 2 = (i + 1) + 1 from rfl, Finset.sum_range_succ,
      Finset.sum_range_succ]
  have hipos : (0 : ℚ) < (i : ℚ) := by exact_mod_cast (by omega : 0 < i)
  have hcast : ((i + 2 : ℕ) : ℚ) = (i : ℚ) + 2 := by push_cast; ring
  unfold mean_group
  rw [hsplit, hcast, div_lt_div_iff₀ (by linarith) hipos]
  nlinarith [hb1, hb2]

/-! ### Behavior of the fallible divisions -/

lemma mapM_div_zero (l : List ℚ) (hl : l ≠ []) :
    l.mapM (fun d => div? d 0) = none := by
  cases l with
  | nil => exact absurd rfl hl
  | cons a t =>
    rw [List.mapM_cons]
    simp [div?]

lemma mapM_div_of_ne_zero (l : List ℚ) (b : ℚ) (hb : b ≠ 0) :
    l.mapM (fun d => div? d b) = some (l.map (fun d => d / b)) := by
  induction l with
  | nil => rfl
  | cons a t ih =>
    rw [List.mapM_cons, ih]
    simp [div?, hb]

/-! ### Allocator theorems -/

/-- C5: a price history that is flat over the trailing 24 bars makes every
moving-average difference zero, hence the normalizing scale `abs_diff` is
zero, and the unguarded normalization `sum_distance[i] / abs_diff` divides
by zero, so the allocation computation reaches its error branch. -/
theorem flat_history_reaches_division_by_zero (price : ℕ → ℚ)
    (hflat : ∀ k, k < 24 → price k = price 0) :
    (∀ d ∈ sum_distance price, d = 0) ∧
    abs_diff (sum_distance price) = 0 ∧
    before_trading_start price = none := by
  have hzero : ∀ d ∈ sum_distance price, d = 0 := by
    intro d hd
    obtain ⟨i, hi, rfl⟩ := List.mem_map.mp hd
    obtain ⟨hiw, hilt⟩ := List.mem_filter.mp hi
    have hlt : i < 23 := of_decide_eq_true hilt
    have hb := windows_bounds hiw
    rw [mean_group_flat price hflat i (by omega) (by omega),
      mean_group_flat price hflat (i + 2) (by omega) (by omega), sub_self]
  have hne := sum_distance_ne_nil price
  have habs : abs_diff (sum_distance price) = 0 := by
    rw [abs_diff_val, hzero _ (percentile0_mem hne),
      hzero _ (percentile100_mem hne)]
    simp
  refine ⟨hzero, habs, ?_⟩
  show ((sum_distance price).mapM
      (fun d => div? d (abs_diff (sum_distance price)))).bind _ = none
  rw [habs, mapM_div_zero _ hne]
  rfl

/-- C5 witness: a concretely flat history (constantly 5) satisfies the
hypothesis, and on it the allocator returns its error branch. -/
theorem flat_history_witness :
    (∀ k, k < 24 → (fun _ : ℕ => (5 : ℚ)) k = (fun _ : ℕ => (5 : ℚ)) 0) ∧
    before_trading_start (fun _ : ℕ => (5 : ℚ)) = none :=
  ⟨fun _ _ => rfl,
    (flat_history_reaches_division_by_zero (fun _ : ℕ => (5 : ℚ))
      (fun _ _ => rfl)).2.2⟩

/-- C4 counterexample: the history `incPrice` is strictly increasing over
the trailing 24 bars, yet not every difference in `sum_distance` is
negative, and the allocator completes with `long_allocations = 1`, which is
not below one half. -/
theorem increasing_history_counterexample :
    (∀ k, k < 23 → incPrice (k + 1) < incPrice k) ∧
    ¬ (∀ d ∈ sum_distance incPrice, d < 0) ∧
    Option.map AllocState.long_allocations (before_trading_start incPrice) =
      some 1 ∧
    ¬ ((1 : ℚ) < 1/2) :=
  ⟨of_decide_eq_true (by with_unfolding_all rfl),
    of_decide_eq_false (by with_unfolding_all rfl),
    by with_unfolding_all rfl,
    of_decide_eq_false (by with_unfolding_all rfl)⟩

/-- C4 amended: for every price history strictly increasing over the
trailing 24 bars, every moving-average difference in `sum_distance` is
positive (not negative), and consequently the allocator completes with
`long_allocations` above (not below) one half. -/
theorem increasing_history_long_above_half (price : ℕ → ℚ)
    (hinc : ∀ k, k < 23 → price (k + 1) < price k) :
    (∀ d ∈ sum_distance price, 0 < d) ∧
    ∃ st, before_trading_start price = some st ∧
      1/2 < st.long_allocations := by
  have hpos : ∀ d ∈ sum_distance price, 0 < d := by
    intro d hd
    obtain ⟨i, hi, rfl⟩ := List.mem_map.mp hd
    obtain ⟨hiw, hilt⟩ := List.mem_filter.mp hi
    have hlt : i < 23 := of_decide_eq_true hilt
    have hb := windows_bounds hiw
    have h := mean_group_lt price hinc i (i + 2) (by omega) rfl (by omega)
    linarith
  have hne := sum_distance_ne_nil price
  have had : 0 < abs_diff (sum_distance price) := by
    have h0 := hpos _ (percentile0_mem hne)
    have h100 := hpos _ (percentile100_mem hne)
    rw [abs_diff_val, abs_of_pos h0, abs_of_pos h100]
    linarith
  have hmm := mapM_div_of_ne_zero (sum_distance price)
    (abs_diff (sum_distance price)) (ne_of_gt had)
  set al := (sum_distance price).map
    (fun d => d / abs_diff (sum_distance price)) with hal
  have halne : al ≠ [] := by
    intro h
    exact hne (List.map_eq_nil_iff.mp (hal ▸ h))
  have hsumpos : 0 < al.sum := by
    refine List.sum_pos al ?_ halne
    intro x hx
    obtain ⟨d, hd, rfl⟩ := List.mem_map.mp (hal ▸ hx)
    exact div_pos (hpos d hd) had
  have hlenpos : (0 : ℚ) < (al.length : ℚ) := by
    exact_mod_cast List.length_pos.mpr halne
  have havgpos : 0 < al.sum / (al.length : ℚ) := div_pos hsumpos hlenpos
  refine ⟨hpos, ⟨⟨al.sum / (al.length : ℚ), 1/2 + al.sum / (al.length : ℚ),
    1 - (1/2 + al.sum / (al.length : ℚ))⟩, ?_, by simpa using havgpos⟩⟩
  show ((sum_distance price).mapM
      (fun d => div? d (abs_diff (sum_distance price)))).bind _ = _
  rw [hmm, Option.some_bind,
    show div? al.sum (al.length : ℚ) = some (al.sum / (al.length : ℚ)) from
      if_neg (ne_of_gt hlenpos),
    Option.some_bind]

/-- C4 witness: the concrete strictly increasing history `incPrice`
satisfies the hypothesis, so the amended conclusion holds on it. -/
theorem increasing_history_witness :
    (∀ k, k < 23 → incPrice (k + 1) < incPrice k) ∧
    ((∀ d ∈ sum_distance incPrice, 0 < d) ∧
      ∃ st, before_trading_start incPrice = some st ∧
        1/2 < st.long_allocations) :=
  ⟨of_decide_eq_true (by with_unfolding_all rfl),
    increasing_history_long_above_half incPrice
      (of_decide_eq_true (by with_unfolding_all rfl))⟩

/-- C1: whenever the allocator completes, the two scalars it stores satisfy
`long_allocations + short_allocations = 1` exactly, because the short side
is computed as `1 - long_allocations`. -/
theorem long_short_allocations_sum_one (price : ℕ → ℚ) (st : AllocState)
    (h : before_trading_start price = some st) :
    st.long_allocations + st.short_allocations = 1 := by
  rw [show before_trading_start price = ((sum_distance price).mapM
      (fun d => div? d (abs_diff (sum_distance price)))).bind
      (fun allocations => (div? allocations.sum allocations.length).bind
        fun avg => some ⟨avg, 1/2 + avg, 1 - (1/2 + avg)⟩) from rfl] at h
  obtain ⟨al, _, h2⟩ := Option.bind_eq_some.mp h
  obtain ⟨avg, _, h4⟩ := Option.bind_eq_some.mp h2
  obtain rfl := Option.some_inj.mp h4
  show 1/2 + avg + (1 - (1/2 + avg)) = 1
  ring

/-- C1 witness: on the concrete history `incPrice` the allocator completes
with long and short allocations 1 and 0, which sum to 1. -/
theorem long_short_allocations_sum_one_witness :
    before_trading_start incPrice = some ⟨1/2, 1, 0⟩ ∧
    (AllocState.mk (1/2) 1 0).long_allocations +
      (AllocState.mk (1/2) 1 0).short_allocations = 1 :=
  ⟨by with_unfolding_all rfl,
    long_short_allocations_sum_one incPrice ⟨1/2, 1, 0⟩
      (by with_unfolding_all rfl)⟩

/-- C10: whenever the allocator completes, the raw recorded signal
`context.allocations` equals `long_allocations - 0.5`, since
`long_allocations` is that same average offset by one half. -/
theorem allocations_eq_long_sub_half (price : ℕ → ℚ) (st : AllocState)
    (h : before_trading_start price = some st) :
    st.allocations = st.long_allocations - 1/2 := by
  rw [show before_trading_start price = ((sum_distance price).mapM
      (fun d => div? d (abs_diff (sum_distance price)))).bind
      (fun allocations => (div? allocations.sum allocations.length).bind
        fun avg => some ⟨avg, 1/2 + avg, 1 - (1/2 + avg)⟩) from rfl] at h
  obtain ⟨al, _, h2⟩ := Option.bind_eq_some.mp h
  obtain ⟨avg, _, h4⟩ := Option.bind_eq_some.mp h2
  obtain rfl := Option.some_inj.mp h4
  show avg = 1/2 + avg - 1/2
  ring

/-- C10 witness: on the concrete history `incPrice` the allocator completes
with recorded signal 1/2, which is its long allocation 1 minus 1/2. -/
theorem allocations_eq_long_sub_half_witness :
    before_trading_start incPrice = some ⟨1/2, 1, 0⟩ ∧
    (AllocState.mk (1/2) 1 0).allocations =
      (AllocState.mk (1/2) 1 0).long_allocations - 1/2 :=
  ⟨by with_unfolding_all rfl,
    allocations_eq_long_sub_half incPrice ⟨1/2, 1, 0⟩
      (by with_unfolding_all rfl)⟩

/-! ### Rebalancing theorems -/

/-- C7: when both lists are non-empty, every tradable long not already held
gets a target-percent order of exactly `long_allocations / len(longs)` and
every tradable short not already held gets exactly
`-(short_allocations / len(shorts))`; when either list is empty, the
rebalance step submits nothing and only the cleanup orders remain. -/
theorem my_rebalance_orders (ctx : RebalanceCtx) :
    (ctx.longs ≠ [] → ctx.shorts ≠ [] →
      (∀ s ∈ ctx.longs, ctx.canTrade s = true → s ∉ ctx.positions →
        (s, ctx.long_allocations / (ctx.longs.length : ℚ)) ∈
          my_rebalance ctx) ∧
      (∀ s ∈ ctx.shorts, ctx.canTrade s = true → s ∉ ctx.positions →
        (s, -(ctx.short_allocations / (ctx.shorts.length : ℚ))) ∈
          my_rebalance ctx)) ∧
    (ctx.longs = [] ∨ ctx.shorts = [] →
      my_rebalance ctx = daily_clean ctx) := by
  constructor
  · intro hl hsh
    have hcond : 0 < ctx.longs.length ∧ 0 < ctx.shorts.length :=
      ⟨List.length_pos.mpr hl, List.length_pos.mpr hsh⟩
    constructor
    · intro s hs htr hnp
      simp only [my_rebalance]
      rw [if_pos hcond]
      exact List.mem_append_left _ (List.mem_append_left _
        (List.mem_map.mpr ⟨s, List.mem_filter.mpr ⟨hs, by simp [htr, hnp]⟩,
          rfl⟩))
    · intro s hs htr hnp
      simp only [my_rebalance]
      rw [if_pos hcond]
      exact List.mem_append_left _ (List.mem_append_right _
        (List.mem_map.mpr ⟨s, List.mem_filter.mpr ⟨hs, by simp [htr, hnp]⟩,
          rfl⟩))
  · intro h
    simp only [my_rebalance]
    rw [if_neg, List.nil_append]
    rintro ⟨h1, h2⟩
    rcases h with h | h
    · rw [h] at h1
      exact absurd h1 (by simp)
    · rw [h] at h2
      exact absurd h2 (by simp)

/-- A concrete rebalance context: one long, one short, one held security
that fell out of the universe. -/
def ctx0 : RebalanceCtx :=
  ⟨[1], [2], [1, 2], [3], fun _ => true, 3/5, 2/5⟩

/-- C7 witness: in `ctx0` both lists are non-empty, and the long and short
orders with the exact per-security weights are submitted. -/
theorem my_rebalance_orders_witness :
    (1, ctx0.long_allocations / (ctx0.longs.length : ℚ)) ∈
      my_rebalance ctx0 ∧
    (2, -(ctx0.short_allocations / (ctx0.shorts.length : ℚ))) ∈
      my_rebalance ctx0 :=
  ⟨((my_rebalance_orders ctx0).1 (by decide) (by decide)).1 1
      (by decide) rfl (by decide),
    ((my_rebalance_orders ctx0).1 (by decide) (by decide)).2 2
      (by decide) rfl (by decide)⟩

/-- C8: on every rebalance — whatever the long and short lists are — each
held security absent from `security_list` that is tradable receives a
target-percent order of 0. -/
theorem daily_clean_flattens_dropped (ctx : RebalanceCtx) (s : Security)
    (hpos : s ∈ ctx.positions) (hnot : s ∉ ctx.security_list)
    (htr : ctx.canTrade s = true) :
    (s, 0) ∈ my_rebalance ctx := by
  refine List.mem_append_right _ ?_
  exact List.mem_map.mpr ⟨s, List.mem_filter.mpr ⟨hpos, by simp [hnot, htr]⟩,
    rfl⟩

/-- A concrete rebalance context with empty long and short lists and one
held security outside the universe. -/
def ctx1 : RebalanceCtx :=
  ⟨[], [], [], [7], fun _ => true, 1/2, 1/2⟩

/-- C8 witness: in `ctx1` both lists are empty, yet the held security 7,
absent from the (empty) security list and tradable, is flattened. -/
theorem daily_clean_flattens_dropped_witness : (7, 0) ∈ my_rebalance ctx1 :=
  daily_clean_flattens_dropped ctx1 7 (by decide) (by decide) rfl

/-- C9: a held security that appears in the day's `security_list` receives
no order of any kind: the long/short loops skip it because it is already
held, and the cleanup pass skips it because it is in the list. -/
theorem held_and_listed_gets_no_order (ctx : RebalanceCtx) (s : Security)
    (hpos : s ∈ ctx.positions) (hin : s ∈ ctx.security_list) :
    ∀ w : ℚ, (s, w) ∉ my_rebalance ctx := by
  intro w hw
  rcases List.mem_append.mp hw with hw1 | hw2
  · by_cases hc : 0 < ctx.longs.length ∧ 0 < ctx.shorts.length
    · rw [show (if 0 < ctx.longs.length ∧ 0 < ctx.shorts.length then _ else _)
        = _ from if_pos hc] at hw1
      rcases List.mem_append.mp hw1 with h | h
      · obtain ⟨a, ha, hpair⟩ := List.mem_map.mp h
        obtain ⟨_, hpred⟩ := List.mem_filter.mp ha
        have has : a = s := congrArg Prod.fst hpair
        subst has
        simp [hpos] at hpred
      · obtain ⟨a, ha, hpair⟩ := List.mem_map.mp h
        obtain ⟨_, hpred⟩ := List.mem_filter.mp ha
        have has : a = s := congrArg Prod.fst hpair
        subst has
        simp [hpos] at hpred
    · rw [show (if 0 < ctx.longs.length ∧ 0 < ctx.shorts.length then _ else _)
        = _ from if_neg hc] at hw1
      cases hw1
  · obtain ⟨a, ha, hpair⟩ := List.mem_map.mp hw2
    obtain ⟨_, hpred⟩ := List.mem_filter.mp ha
    have has : a = s := congrArg Prod.fst hpair
    subst has
    simp [hin] at hpred

/-- A concrete rebalance context in which the held security 3 also appears
in the day's security list. -/
def ctx2 : RebalanceCtx :=
  ⟨[1], [2], [1, 2, 3], [3], fun _ => true, 3/5, 2/5⟩

/-- C9 witness: in `ctx2` the held, listed security 3 receives no order,
e.g. none with target percent 5. -/
theorem held_and_listed_gets_no_order_witness :
    (3, (5 : ℚ)) ∉ my_rebalance ctx2 :=
  held_and_listed_gets_no_order ctx2 3 (by decide) (by decide) 5
